import Mathlib

/-!
Shallow embedding of the scpi-rs message-processing core (crate `scpi`,
file `src/tokenizer.rs`, plus the status handlers of
`src/ieee488/mandatory.rs` and `src/scpi1999/status.rs`), together with
theorems settling the specification claims about it.

Bytes are modelled as `Nat` (Rust `u8` values are < 256; the ASCII
predicates below coincide with Rust's on that range).  Fallible code
returns `Except`/`Option`; iterator state is explicit.
-/

namespace Scpi

/-- Rust `u8::is_ascii_uppercase`. -/
def isAsciiUppercase (b : Nat) : Bool := 65 ≤ b && b ≤ 90

/-- Rust `u8::is_ascii_lowercase`. -/
def isAsciiLowercase (b : Nat) : Bool := 97 ≤ b && b ≤ 122

/-- Rust `u8::is_ascii_digit`. -/
def isAsciiDigit (b : Nat) : Bool := 48 ≤ b && b ≤ 57

/-- Rust `u8::is_ascii_alphabetic`. -/
def isAsciiAlphabetic (b : Nat) : Bool := isAsciiUppercase b || isAsciiLowercase b

/-- Rust `u8::is_ascii_alphanumeric`. -/
def isAsciiAlphanumeric (b : Nat) : Bool := isAsciiAlphabetic b || isAsciiDigit b

/-- Rust `u8::is_ascii_whitespace`: space, tab, newline, form feed, carriage return. -/
def isAsciiWhitespace (b : Nat) : Bool := b = 32 || b = 9 || b = 10 || b = 12 || b = 13

/-- Rust `u8::is_ascii`. -/
def isAscii (b : Nat) : Bool := b ≤ 127

/-- Rust `u8::to_ascii_lowercase`. -/
def toAsciiLowercase (b : Nat) : Nat := if isAsciiUppercase b then b + 32 else b

/-- Rust `u8::eq_ignore_ascii_case`. -/
def eqIgnoreAsciiCase (a b : Nat) : Bool := toAsciiLowercase a == toAsciiLowercase b

/-- Model of the `f32` payload of a decimal-numeric token.  Finite values
are carried as exact rationals (every finite `f32` is a rational); the
non-finite values are the two infinities and NaN.  Floating-point
rounding of the external parser is not modelled; no claim depends on it. -/
inductive F32 where
  | finite (val : ℚ)
  | inf
  | negInf
  | nan
deriving DecidableEq, Repr

/-- Rust `f32::is_finite` on the model. -/
def F32.isFinite : F32 → Bool
  | .finite _ => true
  | _ => false

/-- The token type of `src/tokenizer.rs` (`enum Token<'a>`).  Borrowed
byte slices become `List Nat`; the `f32` payload becomes `F32`.
`Utf8BlockData` carries the validated bytes. -/
inductive Token where
  | HeaderMnemonicSeparator
  | HeaderCommonPrefix
  | HeaderQuerySuffix
  | ProgramMessageUnitSeparator
  | ProgramMessageTerminator
  | ProgramHeaderSeparator
  | ProgramDataSeparator
  | ProgramMnemonic (s : List Nat)
  | CharacterProgramData (s : List Nat)
  | DecimalNumericProgramData (f : F32)
  | SuffixProgramData (s : List Nat)
  | NonDecimalNumericProgramData (v : Nat)
  | StringProgramData (s : List Nat)
  | ArbitraryBlockData (s : List Nat)
  | ExpressionProgramData (s : List Nat)
  | Utf8BlockData (s : List Nat)
deriving DecidableEq, Repr

/-- Modelled from the spec: the error codes of `src/error.rs`, which is
not among the provided sources.  Only the constructor names are needed;
they are the ones the tokenizer and handlers of the provided sources
name, as listed in spec sections 4.1 and 4.3. -/
inductive ErrorCode where
  | CommandHeaderError
  | HeaderSeparatorError
  | InvalidSeparator
  | SyntaxError
  | InvalidCharacter
  | ProgramMnemonicTooLong
  | CharacterDataTooLong
  | SuffixTooLong
  | InvalidCharacterInNumber
  | ExponentTooLarge
  | NumericDataError
  | InvalidCharacterData
  | InvalidSuffix
  | InvalidStringData
  | InvalidBlockData
  | BlockDataError
  | InvalidExpression
  | MissingParameter
  | DataOutOfRange
  | DataTypeError
  | SuffixNotAllowed
deriving DecidableEq, Repr

/-! ## Mnemonic matcher (`Token::mnemonic_compare`, `Token::mnemonic_split_index`,
`Token::eq_mnemonic`, tokenizer.rs lines 58-117) -/

/-- The loop body of `Token::mnemonic_compare`: iterate over the canonical
mnemonic, drawing bytes from the received string `s`; `opt` is the
`optional` flag, which is cleared when a lowercase canonical byte is
consumed together with a received byte. -/
def mnemonicCompareGo : List Nat → List Nat → Bool → Bool
  | [], _, _ => true
  | m :: ms, [], opt =>
      (!(isAsciiUppercase m || isAsciiDigit m) && opt) && mnemonicCompareGo ms [] opt
  | m :: ms, x :: xs, opt =>
      eqIgnoreAsciiCase m x &&
        mnemonicCompareGo ms xs (if isAsciiLowercase m then false else opt)

/-- `Token::mnemonic_compare(mnemonic, s)` (tokenizer.rs lines 77-94). -/
def mnemonic_compare (mnemonic s : List Nat) : Bool :=
  decide (s.length ≤ mnemonic.length) && mnemonicCompareGo mnemonic s true

/-- Rust `Iterator::rposition`: index of the last element satisfying `p`. -/
def rposition (p : Nat → Bool) : List Nat → Option Nat
  | [] => none
  | c :: cs =>
      match rposition p cs with
      | some i => some (i + 1)
      | none => if p c then some 0 else none

/-- `Token::mnemonic_split_index` (tokenizer.rs lines 58-70): split a
mnemonic into stem and trailing digits, when it ends in at least one
digit preceded by a non-digit. -/
def mnemonic_split_index (mnemonic : List Nat) : Option (List Nat × List Nat) :=
  match rposition (fun p => !(isAsciiDigit p)) mnemonic with
  | some index =>
      if index = mnemonic.length - 1 then none
      else some (mnemonic.take (index + 1), mnemonic.drop (index + 1))
  | none => none

/-- `Token::eq_mnemonic` (tokenizer.rs lines 97-117). -/
def eq_mnemonic (t : Token) (mnemonic : List Nat) : Bool :=
  match t with
  | .ProgramMnemonic s | .CharacterProgramData s =>
      mnemonic_compare mnemonic s ||
        match mnemonic_split_index mnemonic, mnemonic_split_index s with
        | none, none => false
        | some (m, index), none => mnemonic_compare m s && index == [49]
        | none, some (x, index) => mnemonic_compare mnemonic x && index == [49]
        | some (m, index1), some (x, index2) =>
            mnemonic_compare m x && index1 == index2
  | _ => false

/-- Pointwise case-insensitive comparison of a received string against the
corresponding prefix of the canonical mnemonic: true iff every byte of
the second list matches the corresponding byte of the first, ignoring
ASCII case (false if the first list is too short). -/
def pointwiseEqIgnoreCase : List Nat → List Nat → Bool
  | _, [] => true
  | [], _ :: _ => false
  | c :: cs, x :: xs => eqIgnoreAsciiCase c x && pointwiseEqIgnoreCase cs xs

end Scpi

namespace Scpi

/-- Canonical bytes whose match may extend past the received string:
none may be uppercase or a digit. -/
def tailOk (l : List Nat) : Prop := ∀ c ∈ l, (isAsciiUppercase c || isAsciiDigit c) = false

/-- No byte of `l` is lowercase. -/
def noLower (l : List Nat) : Prop := ∀ c ∈ l, isAsciiLowercase c = false

theorem pointwiseEqIgnoreCase_nil (C : List Nat) : pointwiseEqIgnoreCase C [] = true := by
  cases C <;> rfl

theorem mnemonicCompareGo_nil (C : List Nat) (opt : Bool) :
    mnemonicCompareGo C [] opt = true ↔ (C = [] ∨ (opt = true ∧ tailOk C)) := by
  induction C with
  | nil => simp [mnemonicCompareGo, tailOk]
  | cons c cs ih =>
    simp only [mnemonicCompareGo, Bool.and_eq_true, Bool.not_eq_true', ih, tailOk,
      List.mem_cons, forall_eq_or_imp]
    constructor
    · rintro ⟨⟨hc, hopt⟩, hcs | ⟨_, htail⟩⟩
      · subst hcs
        exact Or.inr ⟨hopt, hc, by intro c hc; exact absurd hc (List.not_mem_nil c)⟩
      · exact Or.inr ⟨hopt, hc, htail⟩
    · rintro (h | ⟨hopt, hc, htail⟩)
      · exact absurd h (by simp)
      · exact ⟨⟨hc, hopt⟩, Or.inr ⟨hopt, htail⟩⟩

theorem mnemonicCompareGo_spec (s C : List Nat) (opt : Bool) (h : s.length ≤ C.length) :
    mnemonicCompareGo C s opt = true ↔
      (pointwiseEqIgnoreCase C s = true ∧
        (s.length = C.length ∨
          (opt = true ∧ noLower (C.take s.length) ∧ tailOk (C.drop s.length)))) := by
  induction s generalizing C opt with
  | nil =>
    rw [mnemonicCompareGo_nil]
    simp only [pointwiseEqIgnoreCase_nil, List.length_nil, List.take_zero, List.drop_zero,
      true_and]
    constructor
    · rintro (hC | ⟨hopt, htail⟩)
      · exact Or.inl (by rw [hC]; rfl)
      · exact Or.inr ⟨hopt, fun c hc => absurd hc (List.not_mem_nil c), htail⟩
    · rintro (hlen | ⟨hopt, -, htail⟩)
      · exact Or.inl (List.length_eq_zero.mp hlen.symm)
      · exact Or.inr ⟨hopt, htail⟩
  | cons x xs ih =>
    cases C with
    | nil => simp at h
    | cons c cs =>
      simp only [List.length_cons, Nat.add_le_add_iff_right] at h
      have hnl : noLower (c :: cs.take xs.length) ↔
          (isAsciiLowercase c = false ∧ noLower (cs.take xs.length)) := by
        simp [noLower]
      simp only [mnemonicCompareGo, Bool.and_eq_true, pointwiseEqIgnoreCase,
        List.length_cons, List.take_succ_cons, List.drop_succ_cons,
        Nat.add_right_cancel_iff, ih cs _ h, hnl]
      by_cases hc : isAsciiLowercase c = true
      · simp only [hc, if_pos]
        constructor
        · rintro ⟨h1, h2, h3 | ⟨h4, -⟩⟩
          · exact ⟨⟨h1, h2⟩, Or.inl h3⟩
          · exact absurd h4 (by simp)
        · rintro ⟨⟨h1, h2⟩, h3 | ⟨-, ⟨h4, -⟩, -⟩⟩
          · exact ⟨h1, h2, Or.inl h3⟩
          · exact absurd h4 (by simp)
      · simp only [Bool.not_eq_true] at hc
        simp only [hc, Bool.false_eq_true, if_false]
        constructor
        · rintro ⟨h1, h2, h3 | ⟨h4, h5, h6⟩⟩
          · exact ⟨⟨h1, h2⟩, Or.inl h3⟩
          · exact ⟨⟨h1, h2⟩, Or.inr ⟨h4, ⟨trivial, h5⟩, h6⟩⟩
        · rintro ⟨⟨h1, h2⟩, h3 | ⟨h4, ⟨-, h5⟩, h6⟩⟩
          · exact ⟨h1, h2, Or.inl h3⟩
          · exact ⟨h1, h2, Or.inr ⟨h4, h5, h6⟩⟩

end Scpi

namespace Scpi

theorem lower_of_upper {b : Nat} (h : isAsciiUppercase b = true) : isAsciiLowercase b = false := by
  simp only [isAsciiUppercase, Bool.and_eq_true, decide_eq_true_eq] at h
  simp only [isAsciiLowercase, Bool.and_eq_false_iff, decide_eq_false_iff_not]
  omega

theorem upper_of_lower {b : Nat} (h : isAsciiLowercase b = true) : isAsciiUppercase b = false := by
  simp only [isAsciiLowercase, Bool.and_eq_true, decide_eq_true_eq] at h
  simp only [isAsciiUppercase, Bool.and_eq_false_iff, decide_eq_false_iff_not]
  omega

theorem digit_of_lower {b : Nat} (h : isAsciiLowercase b = true) : isAsciiDigit b = false := by
  simp only [isAsciiLowercase, Bool.and_eq_true, decide_eq_true_eq] at h
  simp only [isAsciiDigit, Bool.and_eq_false_iff, decide_eq_false_iff_not]
  omega

theorem digit_of_upper {b : Nat} (h : isAsciiUppercase b = true) : isAsciiDigit b = false := by
  simp only [isAsciiUppercase, Bool.and_eq_true, decide_eq_true_eq] at h
  simp only [isAsciiDigit, Bool.and_eq_false_iff, decide_eq_false_iff_not]
  omega

theorem noLower_take_iff (U L : List Nat) (k : Nat)
    (hU : ∀ b ∈ U, isAsciiUppercase b = true) (hL : ∀ b ∈ L, isAsciiLowercase b = true)
    (hk : k ≤ U.length + L.length) :
    noLower ((U ++ L).take k) ↔ k ≤ U.length := by
  rw [List.take_append_eq_append_take]
  constructor
  · intro h
    by_contra hk2
    push_neg at hk2
    have hpos : 0 < (L.take (k - U.length)).length := by
      rw [List.length_take]
      omega
    obtain ⟨b, hb⟩ := List.exists_mem_of_length_pos hpos
    have hbL : b ∈ L := List.take_subset _ _ hb
    have := h b (List.mem_append_right _ hb)
    rw [hL b hbL] at this
    exact absurd this (by simp)
  · intro hk2 c hc
    rcases List.mem_append.mp hc with hcU | hcL
    · exact lower_of_upper (hU c (List.take_subset _ _ hcU))
    · have : k - U.length = 0 := by omega
      rw [this, List.take_zero] at hcL
      exact absurd hcL (List.not_mem_nil c)

theorem tailOk_drop_iff (U L : List Nat) (k : Nat)
    (hU : ∀ b ∈ U, isAsciiUppercase b = true) (hL : ∀ b ∈ L, isAsciiLowercase b = true) :
    tailOk ((U ++ L).drop k) ↔ U.length ≤ k := by
  rw [List.drop_append_eq_append_drop]
  constructor
  · intro h
    by_contra hk2
    push_neg at hk2
    have hpos : 0 < (U.drop k).length := by
      rw [List.length_drop]
      omega
    obtain ⟨b, hb⟩ := List.exists_mem_of_length_pos hpos
    have hbU : b ∈ U := List.drop_subset _ _ hb
    have := h b (List.mem_append_left _ hb)
    rw [hU b hbU] at this
    exact absurd this (by simp)
  · intro hk2 c hc
    rcases List.mem_append.mp hc with hcU | hcL
    · rw [List.drop_eq_nil_of_le hk2] at hcU
      exact absurd hcU (List.not_mem_nil c)
    · have hcl := hL c (List.drop_subset _ _ hcL)
      rw [upper_of_lower hcl, digit_of_lower hcl]
      rfl

/-- C1: for a canonical mnemonic built from an uppercase short form `U`
followed by a lowercase long-form extension `L`, `Token::mnemonic_compare`
accepts a received string `s` iff its length lies between the
uppercase-prefix length and the full length, every byte of `s` matches
the corresponding canonical byte ignoring ASCII case, and the match stops
exactly at the short form or covers the full long form. -/
theorem mnemonic_compare_spec (U L s : List Nat)
    (hU : ∀ b ∈ U, isAsciiUppercase b = true) (hL : ∀ b ∈ L, isAsciiLowercase b = true) :
    mnemonic_compare (U ++ L) s = true ↔
      (U.length ≤ s.length ∧ s.length ≤ U.length + L.length ∧
        pointwiseEqIgnoreCase (U ++ L) s = true ∧
        (s.length = U.length ∨ s.length = U.length + L.length)) := by
  unfold mnemonic_compare
  by_cases hlen : s.length ≤ U.length + L.length
  · have hlen2 : s.length ≤ (U ++ L).length := by rw [List.length_append]; exact hlen
    rw [Bool.and_eq_true, decide_eq_true_eq,
      mnemonicCompareGo_spec s _ true hlen2,
      noLower_take_iff U L s.length hU hL hlen,
      tailOk_drop_iff U L s.length hU hL]
    rw [List.length_append]
    constructor
    · rintro ⟨hl2, hpt, hfull | ⟨-, hle, hge⟩⟩
      · exact ⟨by omega, hlen, hpt, Or.inr hfull⟩
      · exact ⟨hge, hlen, hpt, Or.inl (by omega)⟩
    · rintro ⟨hge, -, hpt, hshort | hfull⟩
      · exact ⟨hlen, hpt, Or.inr ⟨rfl, by omega, by omega⟩⟩
      · exact ⟨hlen, hpt, Or.inl hfull⟩
  · constructor
    · intro h
      rw [Bool.and_eq_true, decide_eq_true_eq, List.length_append] at h
      exact absurd h.1 hlen
    · rintro ⟨-, h, -⟩
      exact absurd h hlen

end Scpi

namespace Scpi

theorem pointwiseEqIgnoreCase_take (C s : List Nat) (k : Nat)
    (h : pointwiseEqIgnoreCase C s = true) : pointwiseEqIgnoreCase C (s.take k) = true := by
  induction s generalizing C k with
  | nil => rw [List.take_nil]; exact pointwiseEqIgnoreCase_nil C
  | cons x xs ih =>
    cases C with
    | nil => exact absurd h (by simp [pointwiseEqIgnoreCase])
    | cons c cs =>
      cases k with
      | zero => exact pointwiseEqIgnoreCase_nil _
      | succ k =>
        rw [List.take_succ_cons]
        rw [pointwiseEqIgnoreCase, Bool.and_eq_true] at h ⊢
        exact ⟨h.1, ih cs k h.2⟩

/-- C3 (amended): if the matcher accepts `s` for canonical `U ++ L`, it
also accepts the prefix of `s` of length exactly the uppercase-prefix
length of the canonical mnemonic. -/
theorem mnemonic_compare_shortform (U L s : List Nat)
    (hU : ∀ b ∈ U, isAsciiUppercase b = true) (hL : ∀ b ∈ L, isAsciiLowercase b = true)
    (h : mnemonic_compare (U ++ L) s = true) :
    mnemonic_compare (U ++ L) (s.take U.length) = true := by
  obtain ⟨hge, hle, hpt, hdisj⟩ := (mnemonic_compare_spec U L s hU hL).mp h
  apply (mnemonic_compare_spec U L (s.take U.length) hU hL).mpr
  have hlt : (s.take U.length).length = U.length := by
    rw [List.length_take]
    omega
  exact ⟨by omega, by omega, pointwiseEqIgnoreCase_take _ _ _ hpt, Or.inl hlt⟩

/-- C3 (counterexample): the claimed monotonicity fails. With canonical
`TRIGger` (uppercase-prefix length 4), the received string `trigger`
matches, and `trigg` is a prefix of it of length 5 ≥ 4, yet `trigg` is
rejected by `Token::mnemonic_compare`. -/
theorem mnemonic_compare_prefix_counterexample :
    mnemonic_compare [84, 82, 73, 71, 103, 101, 114] [116, 114, 105, 103, 103, 101, 114] = true ∧
    List.take 5 [116, 114, 105, 103, 103, 101, 114] = [116, 114, 105, 103, 103] ∧
    (List.takeWhile isAsciiUppercase [84, 82, 73, 71, 103, 101, 114]).length = 4 ∧
    mnemonic_compare [84, 82, 73, 71, 103, 101, 114] [116, 114, 105, 103, 103] = false := by
  decide

/-- Witness for C1 at canonical `TRIGger` and received `trig`. -/
theorem mnemonic_compare_spec_instance :
    mnemonic_compare ([84, 82, 73, 71] ++ [103, 101, 114]) [116, 114, 105, 103] = true :=
  (mnemonic_compare_spec [84, 82, 73, 71] [103, 101, 114] [116, 114, 105, 103]
    (by decide) (by decide)).mpr (by decide)

/-- Witness for the amended C3 at canonical `TRIGger` and received `trigger`. -/
theorem mnemonic_compare_shortform_instance :
    mnemonic_compare ([84, 82, 73, 71] ++ [103, 101, 114])
      (List.take 4 [116, 114, 105, 103, 103, 101, 114]) = true :=
  mnemonic_compare_shortform [84, 82, 73, 71] [103, 101, 114]
    [116, 114, 105, 103, 103, 101, 114] (by decide) (by decide) (by decide)

end Scpi

namespace Scpi

theorem rposition_append (p : Nat → Bool) (xs ys : List Nat) :
    rposition p (xs ++ ys) =
      match rposition p ys with
      | some i => some (xs.length + i)
      | none => rposition p xs := by
  induction xs with
  | nil =>
    cases h : rposition p ys <;> simp [rposition, h]
  | cons c cs ih =>
    rw [List.cons_append, rposition, ih]
    cases h : rposition p ys with
    | some i => simp [List.length_cons]; omega
    | none => rw [rposition]

theorem rposition_none (p : Nat → Bool) (l : List Nat) (h : ∀ c ∈ l, p c = false) :
    rposition p l = none := by
  induction l with
  | nil => rfl
  | cons c cs ih =>
    rw [rposition, ih (fun b hb => h b (List.mem_cons_of_mem c hb)),
      h c (List.mem_cons_self c cs)]
    rfl

theorem rposition_all (p : Nat → Bool) (l : List Nat) (h : ∀ c ∈ l, p c = true)
    (hne : l ≠ []) : rposition p l = some (l.length - 1) := by
  induction l with
  | nil => exact absurd rfl hne
  | cons c cs ih =>
    rw [rposition]
    cases hcs : cs with
    | nil =>
      rw [show rposition p ([] : List Nat) = none from rfl]
      simp [h c (List.mem_cons_self c cs)]
    | cons d ds =>
      rw [← hcs, ih (fun b hb => h b (List.mem_cons_of_mem c hb)) (by rw [hcs]; simp)]
      have : 0 < cs.length := by rw [hcs]; simp
      simp only [List.length_cons, Option.some.injEq]
      omega

theorem split_append_digits (S D : List Nat) (hS : ∀ b ∈ S, isAsciiDigit b = false)
    (hSne : S ≠ []) (hD : ∀ b ∈ D, isAsciiDigit b = true) :
    mnemonic_split_index (S ++ D) = if D = [] then none else some (S, D) := by
  have hSpos : 0 < S.length := List.length_pos.mpr hSne
  have hrp : rposition (fun p => !(isAsciiDigit p)) (S ++ D) = some (S.length - 1) := by
    rw [rposition_append, rposition_none _ D (fun c hc => by rw [hD c hc]; rfl),
      rposition_all _ S (fun c hc => by rw [hS c hc]; rfl) hSne]
  rw [mnemonic_split_index, hrp]
  dsimp only
  by_cases hDnil : D = []
  · subst hDnil
    rw [if_pos (by rw [List.append_nil]), if_pos rfl]
  · have hDpos : 0 < D.length := List.length_pos.mpr hDnil
    rw [if_neg (by rw [List.length_append]; omega), if_neg hDnil]
    have hidx : S.length - 1 + 1 = S.length := by omega
    rw [hidx]
    rw [List.take_append_eq_append_take, List.take_length, Nat.sub_self, List.take_zero,
      List.append_nil, List.drop_append_eq_append_drop, List.drop_length, Nat.sub_self,
      List.drop_zero, List.nil_append]

end Scpi

namespace Scpi

theorem toAsciiLowercase_eq (b : Nat) :
    toAsciiLowercase b = if 65 ≤ b ∧ b ≤ 90 then b + 32 else b := by
  unfold toAsciiLowercase isAsciiUppercase
  by_cases h : 65 ≤ b ∧ b ≤ 90
  · rw [if_pos h, if_pos]
    simp [h.1, h.2]
  · rw [if_neg h, ite_eq_right_iff]
    intro hb
    simp only [Bool.and_eq_true, decide_eq_true_eq] at hb
    exact absurd hb h

theorem eqIC_iff (c b : Nat) :
    eqIgnoreAsciiCase c b = true ↔ toAsciiLowercase c = toAsciiLowercase b := by
  simp [eqIgnoreAsciiCase]

theorem eqIC_alpha {c b : Nat} (hc : isAsciiAlphabetic c = true)
    (heq : eqIgnoreAsciiCase c b = true) :
    isAsciiAlphabetic b = true ∧ isAsciiDigit b = false := by
  rw [eqIC_iff, toAsciiLowercase_eq, toAsciiLowercase_eq] at heq
  simp only [isAsciiAlphabetic, isAsciiUppercase, isAsciiLowercase, Bool.or_eq_true,
    Bool.and_eq_true, decide_eq_true_eq] at hc
  constructor
  · simp only [isAsciiAlphabetic, isAsciiUppercase, isAsciiLowercase, Bool.or_eq_true,
      Bool.and_eq_true, decide_eq_true_eq]
    split_ifs at heq <;> omega
  · simp only [isAsciiDigit, Bool.and_eq_false_iff, decide_eq_false_iff_not]
    split_ifs at heq <;> omega

theorem eqIC_digit {c b : Nat} (hc : isAsciiDigit c = true)
    (heq : eqIgnoreAsciiCase c b = true) : b = c := by
  rw [eqIC_iff, toAsciiLowercase_eq, toAsciiLowercase_eq] at heq
  simp only [isAsciiDigit, Bool.and_eq_true, decide_eq_true_eq] at hc
  split_ifs at heq <;> omega

theorem pointwise_length {C s : List Nat} (h : pointwiseEqIgnoreCase C s = true) :
    s.length ≤ C.length := by
  induction s generalizing C with
  | nil => simp
  | cons x xs ih =>
    cases C with
    | nil => exact absurd h (by simp [pointwiseEqIgnoreCase])
    | cons c cs =>
      rw [pointwiseEqIgnoreCase, Bool.and_eq_true] at h
      simpa using ih h.2

theorem pointwise_append_split {A B s : List Nat}
    (h : pointwiseEqIgnoreCase (A ++ B) s = true) (hlen : s.length = A.length + B.length) :
    pointwiseEqIgnoreCase A (s.take A.length) = true ∧
      pointwiseEqIgnoreCase B (s.drop A.length) = true := by
  induction A generalizing s with
  | nil =>
    rw [List.nil_append] at h
    exact ⟨pointwiseEqIgnoreCase_nil _, by simpa using h⟩
  | cons a as ih =>
    cases s with
    | nil =>
      simp only [List.length_nil, List.length_cons] at hlen
      omega
    | cons x xs =>
      rw [List.cons_append, pointwiseEqIgnoreCase, Bool.and_eq_true] at h
      simp only [List.length_cons] at hlen
      obtain ⟨h1, h2⟩ := ih h.2 (by omega)
      refine ⟨?_, h2⟩
      rw [List.length_cons, List.take_succ_cons, pointwiseEqIgnoreCase, Bool.and_eq_true]
      exact ⟨h.1, h1⟩

theorem pointwise_all_alpha {C s : List Nat} (hC : ∀ c ∈ C, isAsciiAlphabetic c = true)
    (h : pointwiseEqIgnoreCase C s = true) :
    ∀ b ∈ s, isAsciiAlphabetic b = true ∧ isAsciiDigit b = false := by
  induction s generalizing C with
  | nil => intro b hb; exact absurd hb (List.not_mem_nil b)
  | cons x xs ih =>
    cases C with
    | nil => exact absurd h (by simp [pointwiseEqIgnoreCase])
    | cons c cs =>
      rw [pointwiseEqIgnoreCase, Bool.and_eq_true] at h
      intro b hb
      rcases List.mem_cons.mp hb with hb | hb
      · subst hb
        exact eqIC_alpha (hC c (List.mem_cons_self c cs)) h.1
      · exact ih (fun d hd => hC d (List.mem_cons_of_mem c hd)) h.2 b hb

theorem pointwise_digits_eq {D j : List Nat} (hD : ∀ c ∈ D, isAsciiDigit c = true)
    (h : pointwiseEqIgnoreCase D j = true) (hlen : j.length = D.length) : j = D := by
  induction j generalizing D with
  | nil => cases D with
    | nil => rfl
    | cons d ds => simp at hlen
  | cons x xs ih =>
    cases D with
    | nil => simp at hlen
    | cons d ds =>
      rw [pointwiseEqIgnoreCase, Bool.and_eq_true] at h
      simp only [List.length_cons] at hlen
      rw [eqIC_digit (hD d (List.mem_cons_self d ds)) h.1,
        ih (fun c hc => hD c (List.mem_cons_of_mem d hc)) h.2 (by omega)]

theorem compare_of_pointwise_full {C s : List Nat} (hlen : s.length = C.length)
    (hpt : pointwiseEqIgnoreCase C s = true) : mnemonic_compare C s = true := by
  rw [mnemonic_compare, Bool.and_eq_true, decide_eq_true_eq]
  exact ⟨le_of_eq hlen, (mnemonicCompareGo_spec s C true (le_of_eq hlen)).mpr
    ⟨hpt, Or.inl hlen⟩⟩

theorem compare_pointwise {C s : List Nat} (h : mnemonic_compare C s = true) :
    s.length ≤ C.length ∧ pointwiseEqIgnoreCase C s = true := by
  rw [mnemonic_compare, Bool.and_eq_true, decide_eq_true_eq] at h
  exact ⟨h.1, ((mnemonicCompareGo_spec s C true h.1).mp h.2).1⟩

theorem compare_full_of_digit_tail {S D s : List Nat}
    (hD : ∀ b ∈ D, isAsciiDigit b = true) (hDne : D ≠ [])
    (h : mnemonic_compare (S ++ D) s = true) : s.length = (S ++ D).length := by
  rw [mnemonic_compare, Bool.and_eq_true, decide_eq_true_eq] at h
  obtain ⟨-, hfull | ⟨-, -, htail⟩⟩ := (mnemonicCompareGo_spec s _ true h.1).mp h.2
  · exact hfull
  · by_contra hne
    have hlt : s.length < S.length + D.length := by
      rw [List.length_append] at h hne
      omega
    have hDpos : 0 < D.length := List.length_pos.mpr hDne
    have hpos : 0 < (D.drop (s.length - S.length)).length := by
      rw [List.length_drop]
      omega
    obtain ⟨b, hb⟩ := List.exists_mem_of_length_pos hpos
    have hbD : b ∈ D := List.drop_subset _ _ hb
    have hbdrop : b ∈ (S ++ D).drop s.length := by
      rw [List.drop_append_eq_append_drop]
      exact List.mem_append_right _ hb
    have := htail b hbdrop
    rw [hD b hbD, Bool.or_true] at this
    exact absurd this (by simp)

end Scpi

namespace Scpi

theorem split_none_of_nondigit (s : List Nat) (hs : ∀ b ∈ s, isAsciiDigit b = false) :
    mnemonic_split_index s = none := by
  cases s with
  | nil => rfl
  | cons c cs =>
    rw [mnemonic_split_index,
      rposition_all _ _ (fun b hb => by rw [hs b hb]; rfl) (by simp)]
    dsimp only
    rw [if_pos rfl]

/-- C2: dispatch equality of a received mnemonic token against a canonical
mnemonic `U ++ L ++ D` (uppercase short form, lowercase long-form
extension, optional trailing index digits): the two are equal iff both
split into stem and digits with matching stems and identical digit
strings, or exactly one splits with digit string `1` and the other side
matches the unsplit stem, or neither splits and the stems match. -/
theorem eq_mnemonic_spec (U L D s : List Nat)
    (hU : ∀ b ∈ U, isAsciiUppercase b = true) (hL : ∀ b ∈ L, isAsciiLowercase b = true)
    (hD : ∀ b ∈ D, isAsciiDigit b = true) (hUne : U ≠ []) :
    eq_mnemonic (.ProgramMnemonic s) ((U ++ L) ++ D) = true ↔
      (match mnemonic_split_index ((U ++ L) ++ D), mnemonic_split_index s with
       | some (m, i), some (x, j) => mnemonic_compare m x = true ∧ i = j
       | some (m, i), none => mnemonic_compare m s = true ∧ i = [49]
       | none, some (x, j) => mnemonic_compare ((U ++ L) ++ D) x = true ∧ j = [49]
       | none, none => mnemonic_compare ((U ++ L) ++ D) s = true) := by
  have hSalpha : ∀ b ∈ U ++ L, isAsciiAlphabetic b = true := by
    intro b hb
    rcases List.mem_append.mp hb with h | h
    · rw [isAsciiAlphabetic, hU b h, Bool.true_or]
    · rw [isAsciiAlphabetic, hL b h, Bool.or_true]
  have hSnondigit : ∀ b ∈ U ++ L, isAsciiDigit b = false := by
    intro b hb
    rcases List.mem_append.mp hb with h | h
    · exact digit_of_upper (hU b h)
    · exact digit_of_lower (hL b h)
  have hSne : U ++ L ≠ [] := by
    intro hc
    exact hUne (List.append_eq_nil.mp hc).1
  have hsplitC := split_append_digits (U ++ L) D hSnondigit hSne hD
  show (mnemonic_compare ((U ++ L) ++ D) s ||
      match mnemonic_split_index ((U ++ L) ++ D), mnemonic_split_index s with
      | none, none => false
      | some (m, index), none => mnemonic_compare m s && index == [49]
      | none, some (x, index) => mnemonic_compare ((U ++ L) ++ D) x && index == [49]
      | some (m, index1), some (x, index2) =>
          mnemonic_compare m x && index1 == index2) = true ↔ _
  rw [hsplitC]
  by_cases hDnil : D = []
  · subst hDnil
    rw [if_pos rfl]
    rw [List.append_nil] at hsplitC ⊢
    cases hss : mnemonic_split_index s with
    | none =>
      dsimp only
      rw [Bool.or_false]
    | some xj =>
      obtain ⟨x, j⟩ := xj
      dsimp only
      by_cases hcmp : mnemonic_compare (U ++ L) s = true
      · exfalso
        have hnd : ∀ b ∈ s, isAsciiDigit b = false := fun b hb =>
          (pointwise_all_alpha hSalpha (compare_pointwise hcmp).2 b hb).2
        have := split_none_of_nondigit s hnd
        rw [hss] at this
        exact absurd this (by simp)
      · rw [Bool.not_eq_true] at hcmp
        rw [hcmp, Bool.false_or]
        simp only [Bool.and_eq_true, beq_iff_eq]
  · rw [if_neg hDnil]
    have hDpos : 0 < D.length := List.length_pos.mpr hDnil
    have hSpos : 0 < (U ++ L).length := List.length_pos.mpr hSne
    cases hss : mnemonic_split_index s with
    | some xj =>
      obtain ⟨x2, j2⟩ := xj
      dsimp only
      by_cases hcmp : mnemonic_compare ((U ++ L) ++ D) s = true
      · have hlen := compare_full_of_digit_tail hD hDnil hcmp
        rw [List.length_append] at hlen
        have hpt := (compare_pointwise hcmp).2
        obtain ⟨pt1, pt2⟩ := pointwise_append_split hpt hlen
        have hjD : s.drop (U ++ L).length = D :=
          pointwise_digits_eq hD pt2 (by rw [List.length_drop]; omega)
        have hxlen : (s.take (U ++ L).length).length = (U ++ L).length := by
          rw [List.length_take]
          omega
        have hxnd : ∀ b ∈ s.take (U ++ L).length, isAsciiDigit b = false := fun b hb =>
          (pointwise_all_alpha hSalpha pt1 b hb).2
        have hxne : s.take (U ++ L).length ≠ [] := by
          intro hc
          rw [hc] at hxlen
          simp only [List.length_nil] at hxlen
          omega
        have hjne : s.drop (U ++ L).length ≠ [] := by
          rw [hjD]
          exact hDnil
        have hssval : mnemonic_split_index s =
            some (s.take (U ++ L).length, s.drop (U ++ L).length) := by
          conv_lhs => rw [← List.take_append_drop (U ++ L).length s]
          rw [split_append_digits _ _ hxnd hxne (fun b hb => hD b (hjD ▸ hb)),
            if_neg hjne]
        rw [hss] at hssval
        have hx2 : x2 = s.take (U ++ L).length := by
          injection hssval with hv
          exact (congrArg Prod.fst hv)
        have hj2 : j2 = s.drop (U ++ L).length := by
          injection hssval with hv
          exact (congrArg Prod.snd hv)
        have hRHS : mnemonic_compare (U ++ L) x2 = true ∧ D = j2 := by
          constructor
          · rw [hx2]
            exact compare_of_pointwise_full hxlen pt1
          · rw [hj2, hjD]
        constructor
        · intro _
          exact hRHS
        · intro _
          rw [hcmp, Bool.true_or]
      · rw [Bool.not_eq_true] at hcmp
        rw [hcmp, Bool.false_or]
        simp only [Bool.and_eq_true, beq_iff_eq]
    | none =>
      dsimp only
      by_cases hcmp : mnemonic_compare ((U ++ L) ++ D) s = true
      · exfalso
        have hlen := compare_full_of_digit_tail hD hDnil hcmp
        rw [List.length_append] at hlen
        have hpt := (compare_pointwise hcmp).2
        obtain ⟨pt1, pt2⟩ := pointwise_append_split hpt hlen
        have hjD : s.drop (U ++ L).length = D :=
          pointwise_digits_eq hD pt2 (by rw [List.length_drop]; omega)
        have hxlen : (s.take (U ++ L).length).length = (U ++ L).length := by
          rw [List.length_take]
          omega
        have hxnd : ∀ b ∈ s.take (U ++ L).length, isAsciiDigit b = false := fun b hb =>
          (pointwise_all_alpha hSalpha pt1 b hb).2
        have hxne : s.take (U ++ L).length ≠ [] := by
          intro hc
          rw [hc] at hxlen
          simp only [List.length_nil] at hxlen
          omega
        have hjne : s.drop (U ++ L).length ≠ [] := by
          rw [hjD]
          exact hDnil
        have hssval : mnemonic_split_index s =
            some (s.take (U ++ L).length, s.drop (U ++ L).length) := by
          conv_lhs => rw [← List.take_append_drop (U ++ L).length s]
          rw [split_append_digits _ _ hxnd hxne (fun b hb => hD b (hjD ▸ hb)),
            if_neg hjne]
        rw [hss] at hssval
        exact absurd hssval (by simp)
      · rw [Bool.not_eq_true] at hcmp
        rw [hcmp, Bool.false_or]
        simp only [Bool.and_eq_true, beq_iff_eq]

end Scpi

namespace Scpi

/-- Witness for C2: received `trig` equals canonical `TRIGger1`
(missing index on the received side is treated as index 1). -/
theorem eq_mnemonic_spec_instance :
    eq_mnemonic (.ProgramMnemonic [116, 114, 105, 103])
      (([84, 82, 73, 71] ++ [103, 101, 114]) ++ [49]) = true :=
  (eq_mnemonic_spec [84, 82, 73, 71] [103, 101, 114] [49] [116, 114, 105, 103]
    (by decide) (by decide) (by decide) (by decide)).mpr
    (show mnemonic_compare [84, 82, 73, 71, 103, 101, 114] [116, 114, 105, 103] = true ∧
        ([49] : List Nat) = [49] from ⟨by decide, rfl⟩)

end Scpi

namespace Scpi

/-! ## Lexer (`struct Tokenizer` and its methods, tokenizer.rs lines 386-1262) -/

/-- `Tokenizer::skip_ws` (lines 833-842). -/
def skipWs (chars : List Nat) : List Nat := chars.dropWhile isAsciiWhitespace

/-- `Tokenizer::skip_ws_to_separator` (lines 844-852): skip whitespace,
then fail with `error` unless the next byte (if any) is `,`, `;` or a
newline; the remaining bytes start after the skipped whitespace. -/
def skipWsToSeparator (error : ErrorCode) (chars : List Nat) : Option ErrorCode × List Nat :=
  let rest := skipWs chars
  match rest.head? with
  | some c => if c ≠ 44 ∧ c ≠ 59 ∧ c ≠ 10 then (some error, rest) else (none, rest)
  | none => (none, rest)

/-- Byte accepted inside a `<program mnemonic>`: alphanumeric or `_`. -/
def isMnemonicByte (c : Nat) : Bool := isAsciiAlphanumeric c || c == 95

/-- `Tokenizer::read_mnemonic` (lines 565-583): consume the maximal run
of mnemonic bytes; the source counts consumed bytes and fails once the
count passes 12, having consumed 13 bytes. -/
def readMnemonic (chars : List Nat) : Except ErrorCode Token × List Nat :=
  let n := (chars.takeWhile isMnemonicByte).length
  if 12 < n then (.error .ProgramMnemonicTooLong, chars.drop 13)
  else (.ok (.ProgramMnemonic (chars.take n)), chars.drop n)

/-- `Tokenizer::read_character_data` (lines 591-613): as `read_mnemonic`
but yielding character data and asserting a following separator. -/
def readCharacterData (chars : List Nat) : Except ErrorCode Token × List Nat :=
  let n := (chars.takeWhile isMnemonicByte).length
  if 12 < n then (.error .CharacterDataTooLong, chars.drop 13)
  else
    match skipWsToSeparator .InvalidCharacterData (chars.drop n) with
    | (some e, rest) => (.error e, rest)
    | (none, rest) => (.ok (.CharacterProgramData (chars.take n)), rest)

/-- Byte accepted inside `<suffix program data>`: alphanumeric, `-`, `/` or `.`. -/
def isSuffixByte (c : Nat) : Bool :=
  isAsciiAlphanumeric c || c == 45 || c == 47 || c == 46

/-- `Tokenizer::read_suffix_data` (lines 643-662). -/
def readSuffixData (chars : List Nat) : Except ErrorCode Token × List Nat :=
  let n := (chars.takeWhile isSuffixByte).length
  if 12 < n then (.error .SuffixTooLong, chars.drop 13)
  else
    match skipWsToSeparator .InvalidSuffix (chars.drop n) with
    | (some e, rest) => (.error e, rest)
    | (none, rest) => (.ok (.SuffixProgramData (chars.take n)), rest)

/-- Error codes of the external `lexical_core` numeric parser that
`read_numeric_data` distinguishes. -/
inductive LexicalError where
  | invalidDigit
  | overflow
  | underflow
  | other
deriving DecidableEq, Repr

/-- The error translation done by `read_numeric_data` (lines 621-629):
`InvalidDigit` becomes `InvalidCharacterInNumber`, `Overflow` and
`Underflow` become `ExponentTooLarge`, anything else `NumericDataError`. -/
def lexicalErrorToErrorCode : LexicalError → ErrorCode
  | .invalidDigit => .InvalidCharacterInNumber
  | .overflow => .ExponentTooLarge
  | .underflow => .ExponentTooLarge
  | .other => .NumericDataError

/-- Decimal value of a digit run. -/
def digitsToNat (l : List Nat) : Nat := l.foldl (fun a c => a * 10 + (c - 48)) 0

/-- Model of `lexical_core::parse_partial::<f32>` (an external crate, not
part of this repository): partial parse of `[+-]? digits [. digits]
[(e|E) [+-]? digits]`, returning the value as an exact rational together
with the number of bytes consumed; no mantissa digit at all is an
`invalidDigit` error.  The binary rounding and overflow behaviour of the
external parser are not modelled; no claim depends on the parsed value. -/
def parsePartialF32 (chars : List Nat) : Except LexicalError (F32 × Nat) :=
  let (neg, rest1, nsign) :=
    match chars with
    | 43 :: r => (false, r, 1)
    | 45 :: r => (true, r, 1)
    | _ => (false, chars, 0)
  let intDigits := rest1.takeWhile isAsciiDigit
  let rest2 := rest1.drop intDigits.length
  let (fracDigits, nfrac) :=
    match rest2 with
    | 46 :: r => (r.takeWhile isAsciiDigit, 1 + (r.takeWhile isAsciiDigit).length)
    | _ => ([], 0)
  if intDigits.length = 0 ∧ fracDigits.length = 0 then .error .invalidDigit
  else
    let rest3 := rest2.drop nfrac
    let mantissa : ℚ :=
      (digitsToNat intDigits : ℚ) + (digitsToNat fracDigits : ℚ) / (10 : ℚ) ^ fracDigits.length
    let signed : ℚ := if neg then -mantissa else mantissa
    let (expo, nexp) :=
      match rest3 with
      | 101 :: r | 69 :: r =>
        let (eneg, r2, nes) :=
          match r with
          | 43 :: rr => (false, rr, 1)
          | 45 :: rr => (true, rr, 1)
          | _ => (false, r, 0)
        let eDigits := r2.takeWhile isAsciiDigit
        if eDigits.length = 0 then ((0 : ℤ), 0)
        else (if eneg then -(digitsToNat eDigits : ℤ) else (digitsToNat eDigits : ℤ),
          1 + nes + eDigits.length)
      | _ => ((0 : ℤ), 0)
    .ok (.finite (signed * (10 : ℚ) ^ expo),
      nsign + intDigits.length + nfrac + nexp)

/-- `Tokenizer::read_numeric_data` (lines 619-634). -/
def readNumericData (chars : List Nat) : Except ErrorCode Token × List Nat :=
  match parsePartialF32 chars with
  | .error e => (.error (lexicalErrorToErrorCode e), chars)
  | .ok (f, len) => (.ok (.DecimalNumericProgramData f), skipWs (chars.drop len))

/-- `ascii_to_digit` (lines 528-538).  The subtraction `radix - 10` is a
`u8` subtraction, which wraps modulo 256 for radix 2 and 8
(release-build semantics; a debug build would panic on the underflow). -/
def ascii_to_digit (digit radix : Nat) : Option Nat :=
  let lowercase := toAsciiLowercase digit
  if isAsciiDigit digit && decide (digit - 48 < radix) then some (digit - 48)
  else if isAsciiAlphabetic lowercase && decide (lowercase - 97 < (radix + 246) % 256) then
    some (lowercase - 97 + 10)
  else none

/-- The digit-accumulation loop of `read_nondecimal_data` (lines 677-689):
while the next byte is alphanumeric, consume it and fold it into the
accumulator with wrapping `u32` arithmetic (`acc = digit + acc * radix`
modulo `2^32`, release-build semantics). -/
def readNondecimalGo (radixi : Nat) (acc : Nat) (any : Bool) :
    List Nat → Option ErrorCode × Nat × Bool × List Nat
  | [] => (none, acc, any, [])
  | c :: cs =>
      if isAsciiAlphanumeric c then
        match ascii_to_digit c radixi with
        | some d => readNondecimalGo radixi ((d + acc * radixi) % 4294967296) true cs
        | none => (some .InvalidCharacterInNumber, acc, any, cs)
      else (none, acc, any, c :: cs)

/-- The body of `read_nondecimal_data` (lines 677-696) once the radix has
been decoded: run the accumulation loop, require at least one digit,
then assert a following separator. -/
def readNondecimalBody (r : Nat) (chars : List Nat) : Except ErrorCode Token × List Nat :=
  match readNondecimalGo r 0 false chars with
  | (some e, _, _, rest) => (.error e, rest)
  | (none, acc, any, rest) =>
    if !any then (.error .NumericDataError, rest)
    else
      match skipWsToSeparator .InvalidSeparator rest with
      | (some e, rest2) => (.error e, rest2)
      | (none, rest2) => (.ok (.NonDecimalNumericProgramData acc), rest2)

/-- `Tokenizer::read_nondecimal_data` (lines 669-697); `radix` is the
format byte following `#`. -/
def readNondecimalData (radix : Nat) (chars : List Nat) : Except ErrorCode Token × List Nat :=
  if radix = 72 ∨ radix = 104 then readNondecimalBody 16 chars
  else if radix = 81 ∨ radix = 113 then readNondecimalBody 8 chars
  else if radix = 66 ∨ radix = 98 then readNondecimalBody 2 chars
  else (.error .NumericDataError, chars)

/-- The scan loop of `read_string_data` (lines 705-730): consume bytes up
to and including the closing quote `q`, treating a doubled `q` as two
ordinary bytes; returns the error (if any), the number of bytes consumed
and the remaining bytes. -/
def readStringGo (q : Nat) (ascii : Bool) : List Nat → Option ErrorCode × Nat × List Nat
  | [] => (some .InvalidStringData, 0, [])
  | c :: cs =>
      if c = q then
        match cs with
        | c2 :: cs2 =>
            if c2 = q then
              let (e, n, r) := readStringGo q ascii cs2
              (e, n + 2, r)
            else (none, 1, cs)
        | [] => (none, 1, [])
      else if ascii && !(isAscii c) then (some .InvalidCharacter, 1, cs)
      else
        let (e, n, r) := readStringGo q ascii cs
        (e, n + 1, r)

/-- `Tokenizer::read_string_data` (lines 702-737): `x` is the quote byte;
the first byte of `chars` (the opening quote) is consumed unconditionally. -/
def readStringData (x : Nat) (ascii : Bool) (chars : List Nat) :
    Except ErrorCode Token × List Nat :=
  match chars with
  | [] => (.error .InvalidStringData, [])
  | _ :: s =>
    match readStringGo x ascii s with
    | (some e, _, r) => (.error e, r)
    | (none, n, r) =>
      match skipWsToSeparator .InvalidSeparator r with
      | (some e, rest) => (.error e, rest)
      | (none, rest) => (.ok (.StringProgramData (s.take (n - 1))), rest)

/-- Model of `lexical_core::parse::<usize>` applied to the block-length
header slice: the whole slice must consist of decimal digits. -/
def parseUsizeAll (l : List Nat) : Option Nat :=
  if l ≠ [] ∧ ∀ c ∈ l, isAsciiDigit c = true then some (digitsToNat l) else none

/-- `Tokenizer::read_arbitrary_data` (lines 742-779); `format` is the
digit after `#`.  In the definite form the source slices
`chars[..len]`, which panics when fewer than `len` bytes remain; that
case (unreachable in the claims) is modelled as `InvalidBlockData`. -/
def readArbitraryData (format : Nat) (chars : List Nat) :
    Except ErrorCode Token × List Nat :=
  match ascii_to_digit format 10 with
  | none => (.error .InvalidBlockData, chars)
  | some len =>
    if len = 0 then
      match chars with
      | [] => (.error .InvalidBlockData, [])
      | _ :: _ =>
        let u8str := chars.take (chars.length - 1)
        match (chars.drop (chars.length - 1)).head? with
        | some 10 => (.ok (.ArbitraryBlockData u8str), [])
        | _ => (.error .InvalidBlockData, [])
    else
      if chars.length < len then (.error .InvalidBlockData, chars)
      else
        match parseUsizeAll (chars.take len) with
        | none => (.error .InvalidBlockData, chars)
        | some payload_len =>
          let rest := chars.drop len
          if rest.length < payload_len then (.error .InvalidBlockData, rest)
          else
            let u8str := rest.take payload_len
            match skipWsToSeparator .InvalidSeparator (rest.drop payload_len) with
            | (some e, r) => (.error e, r)
            | (none, r) => (.ok (.ArbitraryBlockData u8str), r)

/-- The scan loop of `read_expression_data` (lines 812-819): consume
bytes until a `)` is seen (not consumed), failing on an illegal byte;
returns the error (if any), the number of bytes consumed and the rest. -/
def readExpressionGo : List Nat → Option ErrorCode × Nat × List Nat
  | [] => (none, 0, [])
  | c :: cs =>
      if c = 41 then (none, 0, c :: cs)
      else if c = 41 ∨ c = 34 ∨ c = 39 ∨ c = 59 ∨ c = 40 ∨ !(isAscii c) then
        (some .InvalidExpression, 1, cs)
      else
        let (e, n, r) := readExpressionGo cs
        (e, n + 1, r)

/-- `Tokenizer::read_expression_data` (lines 808-831): consumes the
opening `(`, scans to the matching `)`, consumes it, then asserts a
separator (with error `InvalidSuffix`, as in the source). -/
def readExpressionData (chars : List Nat) : Except ErrorCode Token × List Nat :=
  match chars with
  | [] => (.error .InvalidExpression, [])
  | _ :: s =>
    match readExpressionGo s with
    | (some e, _, r) => (.error e, r)
    | (none, n, r) =>
      match r with
      | [] => (.error .InvalidExpression, [])
      | _ :: r2 =>
        match skipWsToSeparator .InvalidSuffix r2 with
        | (some e, rest) => (.error e, rest)
        | (none, rest) => (.ok (.ExpressionProgramData (s.take n)), rest)

/-- The lexer state (`struct Tokenizer`, lines 386-392): the remaining
input bytes and the three mode flags. -/
structure Tokenizer where
  chars : List Nat
  in_header : Bool
  in_common : Bool
  in_numeric : Bool
deriving DecidableEq, Repr

/-- `Tokenizer::new` (lines 541-548). -/
def Tokenizer.new (buf : List Nat) : Tokenizer := ⟨buf, true, false, false⟩

/-- One step of the lexer: `<Tokenizer as Iterator>::next`
(lines 1109-1261).  Returns `none` at end of input, otherwise the token
or error together with the successor state.  The byte dispatch follows
the source's match arms in order; the `arbitrary-utf8-string` feature
arm is compiled out. -/
def tokNext (t : Tokenizer) : Option (Except ErrorCode Token × Tokenizer) :=
  match t.chars with
  | [] => none
  | x :: rest =>
    if x = 42 then
      let t1 := { t with chars := rest, in_common := true }
      match rest.head? with
      | some y =>
          if !(isAsciiAlphabetic y) then some (.error .CommandHeaderError, t1)
          else some (.ok .HeaderCommonPrefix, t1)
      | none => some (.ok .HeaderCommonPrefix, t1)
    else if x = 58 then
      let t1 := { t with chars := rest }
      match rest.head? with
      | some y =>
          if !(isAsciiAlphabetic y) then some (.error .InvalidSeparator, t1)
          else if !t.in_header || t.in_common then some (.error .InvalidSeparator, t1)
          else some (.ok .HeaderMnemonicSeparator, t1)
      | none =>
          if !t.in_header || t.in_common then some (.error .InvalidSeparator, t1)
          else some (.ok .HeaderMnemonicSeparator, t1)
    else if x = 63 then
      let t1 := { t with chars := rest }
      match rest.head? with
      | some y =>
          if !(isAsciiWhitespace y) && y ≠ 59 then some (.error .InvalidSeparator, t1)
          else if !t.in_header then some (.error .InvalidSeparator, t1)
          else some (.ok .HeaderQuerySuffix, { t1 with in_header := false })
      | none =>
          if !t.in_header then some (.error .InvalidSeparator, t1)
          else some (.ok .HeaderQuerySuffix, { t1 with in_header := false })
    else if x = 59 then
      some (.ok .ProgramMessageUnitSeparator,
        { t with chars := skipWs rest, in_header := true, in_common := false })
    else if x = 10 then
      some (.ok .ProgramMessageTerminator, { t with chars := rest })
    else if x = 44 then
      if t.in_header then some (.error .HeaderSeparatorError, { t with chars := rest })
      else
        let rest2 := skipWs rest
        let t1 := { t with chars := rest2, in_numeric := false }
        match rest2.head? with
        | some c =>
            if c = 44 ∨ c = 59 ∨ c = 10 then some (.error .SyntaxError, t1)
            else some (.ok .ProgramDataSeparator, t1)
        | none => some (.ok .ProgramDataSeparator, t1)
    else if isAsciiWhitespace x then
      some (.ok .ProgramHeaderSeparator,
        { t with chars := skipWs (x :: rest), in_header := false })
    else if isAsciiAlphabetic x then
      if t.in_header then
        some ((readMnemonic (x :: rest)).1, { t with chars := (readMnemonic (x :: rest)).2 })
      else if t.in_numeric then
        some ((readSuffixData (x :: rest)).1, { t with chars := (readSuffixData (x :: rest)).2 })
      else
        some ((readCharacterData (x :: rest)).1,
          { t with chars := (readCharacterData (x :: rest)).2 })
    else if x = 47 then
      if t.in_header then some (.error .InvalidSeparator, t)
      else
        some ((readSuffixData (x :: rest)).1, { t with chars := (readSuffixData (x :: rest)).2 })
    else if isAsciiDigit x || x = 45 || x = 43 || x = 46 then
      if t.in_header then some (.error .CommandHeaderError, t)
      else
        some ((readNumericData (x :: rest)).1,
          { t with chars := (readNumericData (x :: rest)).2, in_numeric := true })
    else if x = 35 then
      if t.in_header then some (.error .CommandHeaderError, { t with chars := rest })
      else
        match rest with
        | [] => some (.error .BlockDataError, { t with chars := [] })
        | y :: rest2 =>
          if isAsciiDigit y then
            some ((readArbitraryData y rest2).1, { t with chars := (readArbitraryData y rest2).2 })
          else
            some ((readNondecimalData y rest2).1,
              { t with chars := (readNondecimalData y rest2).2 })
    else if x = 39 || x = 34 then
      if t.in_header then some (.error .CommandHeaderError, t)
      else
        some ((readStringData x true (x :: rest)).1,
          { t with chars := (readStringData x true (x :: rest)).2 })
    else if x = 40 then
      some ((readExpressionData (x :: rest)).1,
        { t with chars := (readExpressionData (x :: rest)).2 })
    else
      if isAscii x then some (.error .SyntaxError, { t with chars := rest })
      else some (.error .InvalidCharacter, { t with chars := rest })

/-- The token kinds that `Tokenizer::next_data` recognises as data
objects (the first match group of lines 432-443). -/
def isNextDataObject : Token → Bool
  | .CharacterProgramData _ | .DecimalNumericProgramData _ | .SuffixProgramData _
  | .NonDecimalNumericProgramData _ | .StringProgramData _ | .ArbitraryBlockData _
  | .ExpressionProgramData _ => true
  | _ => false

/-- `Tokenizer::next_data` (lines 426-466), with an explicit fuel that
bounds the recursion (the source recurses after consuming a data
separator; the fuel `chars.length + 1` used by `next_data` below always
suffices, since every produced token consumes at least one byte). -/
def nextDataFuel : Nat → Tokenizer → Bool → Except ErrorCode (Option Token) × Tokenizer
  | 0, t, optional => ((if optional then .ok none else .error .MissingParameter), t)
  | fuel + 1, t, optional =>
    match tokNext t with
    | none => ((if optional then .ok none else .error .MissingParameter), t)
    | some (.error e, _) => (.error e, t)
    | some (.ok tok, t2) =>
      if isNextDataObject tok then (.ok (some tok), t2)
      else if tok = .ProgramDataSeparator then nextDataFuel fuel t2 false
      else ((if optional then .ok none else .error .MissingParameter), t)

/-- `Tokenizer::next_data` (lines 426-466). -/
def next_data (t : Tokenizer) (optional : Bool) :
    Except ErrorCode (Option Token) × Tokenizer :=
  nextDataFuel (t.chars.length + 1) t optional

end Scpi

namespace Scpi

theorem readMnemonic_ne_sep (chars : List Nat) :
    (readMnemonic chars).1 ≠ .ok .ProgramDataSeparator := by
  simp only [readMnemonic]
  split_ifs <;> simp

theorem readCharacterData_ne_sep (chars : List Nat) :
    (readCharacterData chars).1 ≠ .ok .ProgramDataSeparator := by
  simp only [readCharacterData]
  split_ifs
  · simp
  · rcases h : skipWsToSeparator .InvalidCharacterData
      (chars.drop (chars.takeWhile isMnemonicByte).length) with ⟨e, r⟩
    cases e <;> simp

theorem readSuffixData_ne_sep (chars : List Nat) :
    (readSuffixData chars).1 ≠ .ok .ProgramDataSeparator := by
  simp only [readSuffixData]
  split_ifs
  · simp
  · rcases h : skipWsToSeparator .InvalidSuffix
      (chars.drop (chars.takeWhile isSuffixByte).length) with ⟨e, r⟩
    cases e <;> simp

theorem readNumericData_ne_sep (chars : List Nat) :
    (readNumericData chars).1 ≠ .ok .ProgramDataSeparator := by
  simp only [readNumericData]
  rcases h : parsePartialF32 chars with e | ⟨f, len⟩ <;> simp

theorem readNondecimalBody_ne_sep (r : Nat) (chars : List Nat) :
    (readNondecimalBody r chars).1 ≠ .ok .ProgramDataSeparator := by
  simp only [readNondecimalBody]
  rcases hgo : readNondecimalGo r 0 false chars with ⟨e, acc, any, rest⟩
  cases e
  · cases any
    · simp
    · rcases hsk : skipWsToSeparator .InvalidSeparator rest with ⟨e2, r2⟩
      simp only [hsk]
      cases e2 <;> simp
  · simp

theorem readNondecimalData_ne_sep (radix : Nat) (chars : List Nat) :
    (readNondecimalData radix chars).1 ≠ .ok .ProgramDataSeparator := by
  simp only [readNondecimalData]
  split_ifs <;> first
    | exact readNondecimalBody_ne_sep _ chars
    | simp

theorem readStringData_ne_sep (x : Nat) (ascii : Bool) (chars : List Nat) :
    (readStringData x ascii chars).1 ≠ .ok .ProgramDataSeparator := by
  simp only [readStringData]
  cases chars with
  | nil => simp
  | cons c s =>
    rcases hgo : readStringGo x ascii s with ⟨e, n, r⟩
    simp only [hgo]
    cases e
    · rcases hsk : skipWsToSeparator .InvalidSeparator r with ⟨e2, r2⟩
      simp only [hsk]
      cases e2 <;> simp
    · simp

theorem readArbitraryData_ne_sep (format : Nat) (chars : List Nat) :
    (readArbitraryData format chars).1 ≠ .ok .ProgramDataSeparator := by
  simp only [readArbitraryData]
  rcases h : ascii_to_digit format 10 with _ | len
  · simp
  · dsimp only
    split_ifs with h1 h2
    · cases chars with
      | nil => simp
      | cons c cs =>
        rcases hh : ((c :: cs).drop ((c :: cs).length - 1)).head? with _ | y
        · simp [hh]
        · by_cases hy : y = 10 <;> simp [hh, hy]
    · simp
    · rcases hp : parseUsizeAll (chars.take len) with _ | payload_len
      · simp
      · dsimp only
        split_ifs with h3
        · simp
        · rcases hsk : skipWsToSeparator .InvalidSeparator
            ((chars.drop len).drop payload_len) with ⟨e2, r2⟩
          cases e2 <;> simp

theorem readExpressionData_ne_sep (chars : List Nat) :
    (readExpressionData chars).1 ≠ .ok .ProgramDataSeparator := by
  simp only [readExpressionData]
  cases chars with
  | nil => simp
  | cons c s =>
    rcases hgo : readExpressionGo s with ⟨e, n, r⟩
    simp only [hgo]
    cases e
    · cases r with
      | nil => simp
      | cons c2 r2 =>
        rcases hsk : skipWsToSeparator .InvalidSuffix r2 with ⟨e2, rr⟩
        simp only [hsk]
        cases e2 <;> simp
    · simp

end Scpi

namespace Scpi

/-- A `ProgramDataSeparator` token can only come from the `,` arm of the
lexer, whose guard guarantees that the following byte is not another `,`
(the source raises `SyntaxError` on adjacent separators). -/
theorem tokNext_sep_head {t t2 : Tokenizer}
    (h : tokNext t = some (.ok .ProgramDataSeparator, t2)) :
    t.chars.head? = some 44 ∧ t2.chars.head? ≠ some 44 := by
  obtain ⟨chars, ihd, icm, inm⟩ := t
  cases chars with
  | nil => simp [tokNext] at h
  | cons x rest =>
    unfold tokNext at h
    dsimp only at h
    by_cases h1 : x = 42
    case pos =>
      rw [if_pos h1] at h
      cases hh : rest.head? <;> rw [hh] at h <;> (try dsimp only at h)
      · simp at h
      · split_ifs at h <;> simp at h
    rw [if_neg h1] at h
    by_cases h2 : x = 58
    case pos =>
      rw [if_pos h2] at h
      cases hh : rest.head? <;> rw [hh] at h <;> (try dsimp only at h) <;>
        split_ifs at h <;> simp at h
    rw [if_neg h2] at h
    by_cases h3 : x = 63
    case pos =>
      rw [if_pos h3] at h
      cases hh : rest.head? <;> rw [hh] at h <;> (try dsimp only at h) <;>
        split_ifs at h <;> simp at h
    rw [if_neg h3] at h
    by_cases h4 : x = 59
    case pos => rw [if_pos h4] at h; simp at h
    rw [if_neg h4] at h
    by_cases h5 : x = 10
    case pos => rw [if_pos h5] at h; simp at h
    rw [if_neg h5] at h
    by_cases h6 : x = 44
    case pos =>
      rw [if_pos h6] at h
      try dsimp only at h
      split_ifs at h with hhd
      · simp at h
      · cases hh : (skipWs rest).head? <;> rw [hh] at h <;> (try dsimp only at h)
        · simp only [Option.some.injEq, Prod.mk.injEq, true_and] at h
          subst h
          simp [h6, hh]
        · split_ifs at h with hc
          · simp at h
          · simp only [Option.some.injEq, Prod.mk.injEq, true_and] at h
            subst h
            refine ⟨by simp [h6], ?_⟩
            show (skipWs rest).head? ≠ some 44
            rw [hh]
            simp only [ne_eq, Option.some.injEq]
            exact fun hcc => hc (Or.inl hcc)
    rw [if_neg h6] at h
    by_cases h7 : isAsciiWhitespace x = true
    case pos => rw [if_pos h7] at h; simp at h
    rw [if_neg h7] at h
    by_cases h8 : isAsciiAlphabetic x = true
    case pos =>
      rw [if_pos h8] at h
      split_ifs at h <;>
        simp only [Option.some.injEq, Prod.mk.injEq] at h <;>
        first
          | exact absurd h.1 (readMnemonic_ne_sep _)
          | exact absurd h.1 (readSuffixData_ne_sep _)
          | exact absurd h.1 (readCharacterData_ne_sep _)
    rw [if_neg h8] at h
    by_cases h9 : x = 47
    case pos =>
      rw [if_pos h9] at h
      split_ifs at h
      · simp at h
      · simp only [Option.some.injEq, Prod.mk.injEq] at h
        exact absurd h.1 (readSuffixData_ne_sep _)
    rw [if_neg h9] at h
    by_cases h10 : (isAsciiDigit x || x = 45 || x = 43 || x = 46) = true
    case pos =>
      rw [if_pos h10] at h
      split_ifs at h
      · simp at h
      · simp only [Option.some.injEq, Prod.mk.injEq] at h
        exact absurd h.1 (readNumericData_ne_sep _)
    rw [if_neg h10] at h
    by_cases h11 : x = 35
    case pos =>
      rw [if_pos h11] at h
      split_ifs at h with hhd
      · simp at h
      · cases rest with
        | nil => simp at h
        | cons y rest2 =>
          dsimp only at h
          split_ifs at h with hy <;>
            simp only [Option.some.injEq, Prod.mk.injEq] at h
          · exact absurd h.1 (readArbitraryData_ne_sep _ _)
          · exact absurd h.1 (readNondecimalData_ne_sep _ _)
    rw [if_neg h11] at h
    by_cases h12 : (x = 39 || x = 34) = true
    case pos =>
      rw [if_pos h12] at h
      split_ifs at h
      · simp at h
      · simp only [Option.some.injEq, Prod.mk.injEq] at h
        exact absurd h.1 (readStringData_ne_sep _ _ _)
    rw [if_neg h12] at h
    by_cases h13 : x = 40
    case pos =>
      rw [if_pos h13] at h
      simp only [Option.some.injEq, Prod.mk.injEq] at h
      exact absurd h.1 (readExpressionData_ne_sep _)
    rw [if_neg h13] at h
    split_ifs at h <;> simp at h

end Scpi

namespace Scpi

theorem tokNext_some_ne_nil {t : Tokenizer} {p : Except ErrorCode Token × Tokenizer}
    (h : tokNext t = some p) : t.chars ≠ [] := by
  intro hnil
  rw [tokNext, hnil] at h
  simp at h

theorem nextDataFuel_succ (fuel : Nat) (t : Tokenizer) (optional : Bool) :
    nextDataFuel (fuel + 1) t optional =
      match tokNext t with
      | none => ((if optional then .ok none else .error .MissingParameter), t)
      | some (.error e, _) => (.error e, t)
      | some (.ok tok, t2) =>
        if isNextDataObject tok then (.ok (some tok), t2)
        else if tok = .ProgramDataSeparator then nextDataFuel fuel t2 false
        else ((if optional then .ok none else .error .MissingParameter), t) := rfl

/-- C6 (amended): `next_data(optional)` returns and consumes the next
data-object token; a leading `DataSeparator` is consumed (at most one:
the lexer never produces two adjacent separators), after which a data
object must follow -- a following non-data token or an exhausted stream
yields `MissingParameter`, while a lexer error at the following token
propagates as that error; when the next token is not a data object and
not a separator (for instance a unit separator or message terminator) or
the stream is exhausted, the cursor returns `Ok(None)` if `optional` and
fails with `MissingParameter` otherwise, consuming nothing. -/
theorem next_data_spec (t : Tokenizer) (optional : Bool) :
    (tokNext t = none →
      next_data t optional =
        ((if optional then .ok none else .error .MissingParameter), t)) ∧
    (∀ e t1, tokNext t = some (.error e, t1) → next_data t optional = (.error e, t)) ∧
    (∀ tok t2, tokNext t = some (.ok tok, t2) → isNextDataObject tok = true →
      next_data t optional = (.ok (some tok), t2)) ∧
    (∀ tok t2, tokNext t = some (.ok tok, t2) → isNextDataObject tok = false →
      tok ≠ .ProgramDataSeparator →
      next_data t optional =
        ((if optional then .ok none else .error .MissingParameter), t)) ∧
    (∀ t2, tokNext t = some (.ok .ProgramDataSeparator, t2) →
      (∀ tok3 t3, tokNext t2 = some (.ok tok3, t3) → tok3 ≠ .ProgramDataSeparator) ∧
      (tokNext t2 = none → next_data t optional = (.error .MissingParameter, t2)) ∧
      (∀ e t3, tokNext t2 = some (.error e, t3) →
        next_data t optional = (.error e, t2)) ∧
      (∀ tok3 t3, tokNext t2 = some (.ok tok3, t3) → isNextDataObject tok3 = true →
        next_data t optional = (.ok (some tok3), t3)) ∧
      (∀ tok3 t3, tokNext t2 = some (.ok tok3, t3) → isNextDataObject tok3 = false →
        next_data t optional = (.error .MissingParameter, t2))) := by
  refine ⟨?_, ?_, ?_, ?_, ?_⟩
  · intro h
    rw [next_data, nextDataFuel_succ, h]
  · intro e t1 h
    rw [next_data, nextDataFuel_succ, h]
  · intro tok t2 h hdata
    rw [next_data, nextDataFuel_succ, h]
    dsimp only
    rw [if_pos hdata]
  · intro tok t2 h hdata hne
    rw [next_data, nextDataFuel_succ, h]
    dsimp only
    rw [if_neg (by rw [hdata]; exact Bool.false_ne_true), if_neg hne]
  · intro t2 hsep
    have hhead := tokNext_sep_head hsep
    have hnosep : ∀ tok3 t3, tokNext t2 = some (.ok tok3, t3) →
        tok3 ≠ .ProgramDataSeparator := by
      intro tok3 t3 h3 hceq
      subst hceq
      exact absurd (tokNext_sep_head h3).1 hhead.2
    obtain ⟨n, hn⟩ : ∃ n, t.chars.length = n + 1 := by
      cases hc : t.chars with
      | nil => rw [hc] at hhead; simp at hhead
      | cons a l => exact ⟨l.length, by simp [hc]⟩
    have hstep : next_data t optional = nextDataFuel (n + 1) t2 false := by
      rw [next_data, hn, nextDataFuel_succ, hsep]
      dsimp only
      rw [if_neg (by simp [isNextDataObject]), if_pos rfl]
    refine ⟨hnosep, ?_, ?_, ?_, ?_⟩
    · intro h3
      rw [hstep, nextDataFuel_succ, h3]
      rfl
    · intro e t3 h3
      rw [hstep, nextDataFuel_succ, h3]
    · intro tok3 t3 h3 hdata
      rw [hstep, nextDataFuel_succ, h3]
      dsimp only
      rw [if_pos hdata]
    · intro tok3 t3 h3 hdata
      rw [hstep, nextDataFuel_succ, h3]
      dsimp only
      rw [if_neg (by rw [hdata]; exact Bool.false_ne_true),
        if_neg (hnosep tok3 t3 h3)]
      rfl

/-- C6 (counterexample): from the state whose remaining input is `,:`
(outside the header), `next_data` consumes the data separator and then
hits the lexer error for the stray `:`; the result is that error,
`InvalidSeparator`, not the `MissingParameter` the claim requires after
a separator not followed by a data object. -/
theorem next_data_error_after_separator :
    next_data ⟨[44, 58], false, false, false⟩ true =
      (.error .InvalidSeparator, ⟨[58], false, false, false⟩) ∧
    ErrorCode.InvalidSeparator ≠ ErrorCode.MissingParameter :=
  ⟨rfl, by decide⟩

/-- Witness for the amended C6: from the state whose remaining input is
the string literal `"A"`, `next_data` consumes and returns the string
data object. -/
theorem next_data_spec_instance :
    next_data ⟨[34, 65, 34], false, false, false⟩ false =
      (.ok (some (.StringProgramData [65])), ⟨[], false, false, false⟩) :=
  (next_data_spec ⟨[34, 65, 34], false, false, false⟩ false).2.2.1
    (.StringProgramData [65]) ⟨[], false, false, false⟩ rfl rfl

end Scpi

namespace Scpi

/-- C4 (code bug, evaluation at the failing input): lexing `A *B\n`, the
`*` arrives after the header separator with `in_header = false` -- that
is, outside the header position -- yet the lexer emits
`Ok(HeaderCommonPrefix)` and sets `in_common`; the `*` arm of the
iterator never checks `in_header`, although its source comment (like the
enforced one in the `:` arm) says the byte is not allowed there. -/
theorem star_outside_header_accepted :
    tokNext (Tokenizer.new [65, 32, 42, 66, 10]) =
      some (.ok (.ProgramMnemonic [65]), ⟨[32, 42, 66, 10], true, false, false⟩) ∧
    tokNext ⟨[32, 42, 66, 10], true, false, false⟩ =
      some (.ok .ProgramHeaderSeparator, ⟨[42, 66, 10], false, false, false⟩) ∧
    Tokenizer.in_header ⟨[42, 66, 10], false, false, false⟩ = false ∧
    tokNext ⟨[42, 66, 10], false, false, false⟩ =
      some (.ok .HeaderCommonPrefix, ⟨[66, 10], false, true, false⟩) :=
  ⟨rfl, rfl, rfl, rfl⟩

/-- C5 (counterexample): the non-decimal reader has no overflow check.
Lexing `#H100000000` (nine hex digits, value `2^32`) outside the header
wraps the `u32` accumulator to 0 and succeeds, where the claim requires
the hard error `ExponentTooLarge`. -/
theorem nondecimal_overflow_wraps :
    tokNext ⟨[35, 72, 49, 48, 48, 48, 48, 48, 48, 48, 48, 10], false, false, false⟩ =
      some (.ok (.NonDecimalNumericProgramData 0), ⟨[], false, false, false⟩) ∧
    readNondecimalData 72 [49, 48, 48, 48, 48, 48, 48, 48, 48, 10] =
      (.ok (.NonDecimalNumericProgramData 0), []) ∧
    (.ok (.NonDecimalNumericProgramData 0) : Except ErrorCode Token) ≠
      .error .ExponentTooLarge :=
  ⟨rfl, rfl, by simp⟩

theorem readNondecimalGo_err (r acc : Nat) (any : Bool) (chars : List Nat) :
    (readNondecimalGo r acc any chars).1 = none ∨
      (readNondecimalGo r acc any chars).1 = some .InvalidCharacterInNumber := by
  induction chars generalizing acc any with
  | nil => exact Or.inl rfl
  | cons c cs ih =>
    rw [readNondecimalGo]
    by_cases h1 : isAsciiAlphanumeric c = true
    · rw [if_pos h1]
      cases h2 : ascii_to_digit c r with
      | some d => exact ih _ _
      | none => exact Or.inr rfl
    · rw [if_neg h1]
      exact Or.inl rfl

theorem skipWsToSeparator_err (err : ErrorCode) (chars : List Nat) :
    (skipWsToSeparator err chars).1 = none ∨
      (skipWsToSeparator err chars).1 = some err := by
  rw [skipWsToSeparator]
  cases h : (skipWs chars).head? with
  | none => exact Or.inl rfl
  | some c =>
    dsimp only
    split_ifs
    · exact Or.inr rfl
    · exact Or.inl rfl

theorem readNondecimalBody_no_exp (r : Nat) (chars : List Nat) :
    (readNondecimalBody r chars).1 ≠ .error .ExponentTooLarge := by
  simp only [readNondecimalBody]
  rcases hgo : readNondecimalGo r 0 false chars with ⟨e, acc, any, rest⟩
  cases e with
  | some e1 =>
    have herr := readNondecimalGo_err r 0 false chars
    rw [hgo] at herr
    rcases herr with h | h
    · exact absurd h (by simp)
    · simp only [Option.some.injEq] at h
      subst h
      simp
  | none =>
    cases any with
    | false => simp
    | true =>
      rcases hsk : skipWsToSeparator .InvalidSeparator rest with ⟨e2, r2⟩
      simp only [hsk]
      cases e2 with
      | some e3 =>
        have hse := skipWsToSeparator_err .InvalidSeparator rest
        rw [hsk] at hse
        rcases hse with h | h
        · exact absurd h (by simp)
        · simp only [Option.some.injEq] at h
          subst h
          simp
      | none => simp

theorem readNondecimalData_no_exp (radix : Nat) (chars : List Nat) :
    (readNondecimalData radix chars).1 ≠ .error .ExponentTooLarge := by
  simp only [readNondecimalData]
  split_ifs <;> first
    | exact readNondecimalBody_no_exp _ chars
    | simp

/-- C5 (amended): overflow reported by the external decimal parser
(`Overflow` or `Underflow`) is translated to the hard error
`ExponentTooLarge` by `read_numeric_data`; the non-decimal `#H`/`#Q`/`#B`
reader, in contrast, wraps its `u32` accumulator modulo `2^32` and can
never report `ExponentTooLarge`. -/
theorem numeric_overflow_classification :
    (∀ chars e, parsePartialF32 chars = .error e →
      readNumericData chars = (.error (lexicalErrorToErrorCode e), chars)) ∧
    lexicalErrorToErrorCode .overflow = .ExponentTooLarge ∧
    lexicalErrorToErrorCode .underflow = .ExponentTooLarge ∧
    (∀ radix chars, (readNondecimalData radix chars).1 ≠ .error .ExponentTooLarge) := by
  refine ⟨?_, rfl, rfl, ?_⟩
  · intro chars e h
    simp [readNumericData, h]
  · intro radix chars
    exact readNondecimalData_no_exp radix chars

/-- Witness for the amended C5: `+z` is rejected with
`InvalidCharacterInNumber`, and `#H` followed by `G` never produces
`ExponentTooLarge`. -/
theorem numeric_overflow_classification_instance :
    readNumericData [43, 122] = (.error .InvalidCharacterInNumber, [43, 122]) ∧
    (readNondecimalData 72 [71]).1 ≠ .error .ExponentTooLarge :=
  ⟨numeric_overflow_classification.1 [43, 122] .invalidDigit rfl,
   numeric_overflow_classification.2.2.2 72 [71]⟩

end Scpi

namespace Scpi

theorem readStringGo_decomp (q : Nat) (ascii : Bool) :
    ∀ (k : Nat) (s : List Nat), s.length ≤ k → ∀ (n : Nat) (r : List Nat),
      readStringGo q ascii s = (none, n, r) →
      s = s.take (n - 1) ++ q :: r ∧ 1 ≤ n ∧ r.head? ≠ some q := by
  intro k
  induction k with
  | zero =>
    intro s hs n r h
    rw [List.length_eq_zero.mp (Nat.le_zero.mp hs)] at h
    rw [readStringGo.eq_def] at h
    simp at h
  | succ k ih =>
    intro s hs n r h
    cases s with
    | nil =>
      rw [readStringGo.eq_def] at h
      simp at h
    | cons c cs =>
      simp only [List.length_cons, Nat.add_le_add_iff_right] at hs
      rw [readStringGo.eq_def] at h
      dsimp only at h
      by_cases hc : c = q
      · rw [if_pos hc] at h
        cases cs with
        | nil =>
          simp only [Prod.mk.injEq] at h
          obtain ⟨-, hn1, hr⟩ := h
          subst hn1
          subst hr
          refine ⟨by rw [hc]; rfl, le_refl 1, by simp⟩
        | cons c2 cs2 =>
          dsimp only at h
          by_cases hc2 : c2 = q
          · rw [if_pos hc2] at h
            rcases hgo : readStringGo q ascii cs2 with ⟨e0, n0, r0⟩
            rw [hgo] at h
            dsimp only at h
            simp only [Prod.mk.injEq] at h
            obtain ⟨he, hn2, hr⟩ := h
            subst he
            subst hn2
            subst hr
            have hlen2 : cs2.length ≤ k := by
              simp only [List.length_cons] at hs
              omega
            obtain ⟨hdec, hge, hhd⟩ := ih cs2 hlen2 n0 r0 (hgo)
            refine ⟨?_, by omega, hhd⟩
            have hn0 : n0 + 2 - 1 = (n0 - 1) + 2 := by omega
            rw [hn0]
            rw [show (c :: c2 :: cs2).take ((n0 - 1) + 2) =
              c :: c2 :: cs2.take (n0 - 1) from rfl]
            rw [List.cons_append, List.cons_append]
            rw [← hdec]
          · rw [if_neg hc2] at h
            simp only [Prod.mk.injEq] at h
            obtain ⟨-, hn1, hr⟩ := h
            subst hn1
            subst hr
            refine ⟨by rw [hc]; rfl, le_refl 1, ?_⟩
            simp only [List.head?_cons, ne_eq, Option.some.injEq]
            exact hc2
      · rw [if_neg hc] at h
        by_cases ha : (ascii && !(isAscii c)) = true
        · rw [if_pos ha] at h
          simp at h
        · rw [if_neg ha] at h
          rcases hgo : readStringGo q ascii cs with ⟨e0, n0, r0⟩
          rw [hgo] at h
          dsimp only at h
          simp only [Prod.mk.injEq] at h
          obtain ⟨he, hn1, hr⟩ := h
          subst he
          subst hn1
          subst hr
          obtain ⟨hdec, hge, hhd⟩ := ih cs hs n0 r0 (hgo)
          refine ⟨?_, by omega, hhd⟩
          have hn0 : n0 + 1 - 1 = (n0 - 1) + 1 := by omega
          rw [hn0]
          rw [show (c :: cs).take ((n0 - 1) + 1) = c :: cs.take (n0 - 1) from rfl]
          rw [List.cons_append]
          rw [← hdec]

/-- C10: a quoted string successfully lexed by `read_string_data` yields
exactly the bytes strictly between the opening quote and the final
closing quote: the input decomposes as the opening quote, the payload
verbatim (embedded doubled quotes included as two bytes), the closing
quote, and a remainder that does not begin with another quote. -/
theorem read_string_data_spec (q : Nat) (ascii : Bool) (s payload rest : List Nat)
    (h : readStringData q ascii (q :: s) = (.ok (.StringProgramData payload), rest)) :
    ∃ r0, s = payload ++ q :: r0 ∧ r0.head? ≠ some q := by
  rw [readStringData] at h
  rcases hgo : readStringGo q ascii s with ⟨e0, n0, r0⟩
  rw [hgo] at h
  cases e0 with
  | some e1 => simp at h
  | none =>
    dsimp only at h
    rcases hsk : skipWsToSeparator .InvalidSeparator r0 with ⟨e2, rr⟩
    rw [hsk] at h
    cases e2 with
    | some e3 => simp at h
    | none =>
      dsimp only at h
      simp only [Prod.mk.injEq, Except.ok.injEq, Token.StringProgramData.injEq] at h
      obtain ⟨hp, -⟩ := h
      obtain ⟨hdec, -, hhd⟩ := readStringGo_decomp q ascii s.length s (le_refl _) n0 r0 hgo
      exact ⟨r0, by rw [← hp]; exact hdec, hhd⟩

/-- Witness for C10 at the unit-test input `'MO''HM',  gui`: the payload
is `MO''HM` with the doubled quote kept as two bytes. -/
theorem read_string_data_spec_instance :
    ∃ r0, ([77, 79, 39, 39, 72, 77, 39, 44, 32, 32, 103, 117, 105] : List Nat) =
        [77, 79, 39, 39, 72, 77] ++ 39 :: r0 ∧ r0.head? ≠ some 39 :=
  read_string_data_spec 39 true [77, 79, 39, 39, 72, 77, 39, 44, 32, 32, 103, 117, 105]
    [77, 79, 39, 39, 72, 77] [44, 32, 32, 103, 117, 105] rfl

end Scpi

namespace Scpi

/-! ## Typed integer conversion (`impl_tryfrom_integer!`, tokenizer.rs
lines 345-384) -/

/-- Rust `f32::round` (round half away from zero) on the exact rational
value of a finite `f32`. -/
def rustRound (q : ℚ) : ℤ := if 0 ≤ q then ⌊q + 1 / 2⌋ else -⌊-q + 1 / 2⌋

/-- Rust `as i64` applied to the integer-valued float `value.round()`:
the float-to-integer cast saturates at the `i64` bounds. -/
def castToI64 (z : ℤ) : ℤ :=
  max (-9223372036854775808) (min 9223372036854775807 z)

/-- `<T>::try_from(...).map_err(|_| DataOutOfRange)` for an integer
target with inclusive range `[lo, hi]`. -/
def tryFromRange (lo hi v : ℤ) : Except ErrorCode ℤ :=
  if lo ≤ v ∧ v ≤ hi then .ok v else .error .DataOutOfRange

/-- The `TryFrom<Token>` conversion generated by `impl_tryfrom_integer!`
for a target integer type with range `[lo, hi]` (i8: `[-2^7, 2^7-1]`,
..., u32: `[0, 2^32-1]`; on a 64-bit host isize: `[-2^63, 2^63-1]` and
usize: `[0, 2^64-1]`). -/
def tryFromInteger (lo hi : ℤ) : Token → Except ErrorCode ℤ
  | .DecimalNumericProgramData f =>
    match f with
    | .finite q => tryFromRange lo hi (castToI64 (rustRound q))
    | _ => .error .DataOutOfRange
  | .NonDecimalNumericProgramData v => tryFromRange lo hi (v : ℤ)
  | .SuffixProgramData _ | .CharacterProgramData _ | .StringProgramData _
  | .ArbitraryBlockData _ => .error .DataTypeError
  | _ => .error .SyntaxError

/-- C7 (counterexample): converting the finite decimal value `2^63`
(an exact `f32`, since `2^63 = 8388608 * 2^40`) to the 64-bit `usize`
target saturates in `value.round() as i64` and yields `Ok(2^63 - 1)` --
not the rounded value `2^63`, which is representable in `usize`, and not
`DataOutOfRange` either. -/
theorem decimal_to_usize_saturates :
    tryFromInteger 0 18446744073709551615
        (.DecimalNumericProgramData (.finite (9223372036854775808 : ℚ))) =
      .ok 9223372036854775807 ∧
    (9223372036854775808 : ℤ) ≤ 18446744073709551615 ∧
    (9223372036854775807 : ℤ) ≠ 9223372036854775808 := by
  refine ⟨?_, by norm_num, by norm_num⟩
  have hr : rustRound (9223372036854775808 : ℚ) = 9223372036854775808 := by
    rw [rustRound, if_pos (by norm_num)]
    rw [Int.floor_eq_iff]
    norm_num
  show tryFromRange 0 18446744073709551615
      (castToI64 (rustRound (9223372036854775808 : ℚ))) = .ok 9223372036854775807
  rw [hr, castToI64, min_eq_left (by norm_num), max_eq_right (by norm_num),
    tryFromRange, if_pos (by norm_num)]

/-- C7 (amended): for targets whose range sits strictly inside the `i64`
range (i8, u8, i16, u16, i32, u32), a finite decimal converts to its
rounded value exactly when that value is representable, and fails with
`DataOutOfRange` otherwise; a non-finite decimal always fails with
`DataOutOfRange`; a non-decimal numeric converts to its `u32` value
exactly when representable, failing with `DataOutOfRange` otherwise; for
the 64-bit targets the rounded value is first saturated to the `i64`
range, so a rounded value above `2^63 - 1` yields `2^63 - 1` whenever
that bound is representable in the target. -/
theorem tryfrom_integer_spec :
    (∀ (lo hi : ℤ) (q : ℚ), -9223372036854775808 < lo → hi < 9223372036854775807 →
      ((lo ≤ rustRound q ∧ rustRound q ≤ hi →
        tryFromInteger lo hi (.DecimalNumericProgramData (.finite q)) =
          .ok (rustRound q)) ∧
       (¬(lo ≤ rustRound q ∧ rustRound q ≤ hi) →
        tryFromInteger lo hi (.DecimalNumericProgramData (.finite q)) =
          .error .DataOutOfRange))) ∧
    (∀ (lo hi : ℤ) (f : F32), f.isFinite = false →
      tryFromInteger lo hi (.DecimalNumericProgramData f) = .error .DataOutOfRange) ∧
    (∀ (lo hi : ℤ) (v : Nat),
      (lo ≤ (v : ℤ) ∧ (v : ℤ) ≤ hi →
        tryFromInteger lo hi (.NonDecimalNumericProgramData v) = .ok v) ∧
      (¬(lo ≤ (v : ℤ) ∧ (v : ℤ) ≤ hi) →
        tryFromInteger lo hi (.NonDecimalNumericProgramData v) =
          .error .DataOutOfRange)) ∧
    (∀ (lo hi : ℤ) (q : ℚ), 9223372036854775807 < rustRound q →
      tryFromInteger lo hi (.DecimalNumericProgramData (.finite q)) =
        if lo ≤ 9223372036854775807 ∧ (9223372036854775807 : ℤ) ≤ hi
        then .ok 9223372036854775807 else .error .DataOutOfRange) := by
  refine ⟨?_, ?_, ?_, ?_⟩
  · intro lo hi q hlo hhi
    constructor
    · rintro ⟨h1, h2⟩
      have hc : castToI64 (rustRound q) = rustRound q := by
        rw [castToI64, min_eq_right (by omega), max_eq_right (by omega)]
      show tryFromRange lo hi (castToI64 (rustRound q)) = .ok (rustRound q)
      rw [hc, tryFromRange, if_pos ⟨h1, h2⟩]
    · intro hn
      show tryFromRange lo hi (castToI64 (rustRound q)) = .error .DataOutOfRange
      rw [tryFromRange, if_neg]
      rintro ⟨ha, hb⟩
      rw [castToI64] at ha hb
      rcases le_or_lt (rustRound q) 9223372036854775807 with hle | hgt
      · rcases le_or_lt (-9223372036854775808) (rustRound q) with hge | hlt
        · rw [min_eq_right hle, max_eq_right hge] at ha hb
          exact hn ⟨ha, hb⟩
        · rw [min_eq_right hle, max_eq_left (by omega)] at ha
          omega
      · rw [min_eq_left (by omega), max_eq_right (by norm_num)] at hb
        omega
  · intro lo hi f hf
    cases f with
    | finite q => simp [F32.isFinite] at hf
    | inf => rfl
    | negInf => rfl
    | nan => rfl
  · intro lo hi v
    constructor
    · intro hin
      show tryFromRange lo hi (v : ℤ) = .ok v
      rw [tryFromRange, if_pos hin]
    · intro hn
      show tryFromRange lo hi (v : ℤ) = .error .DataOutOfRange
      rw [tryFromRange, if_neg hn]
  · intro lo hi q hgt
    have hc : castToI64 (rustRound q) = 9223372036854775807 := by
      rw [castToI64, min_eq_left (by omega), max_eq_right (by norm_num)]
    show tryFromRange lo hi (castToI64 (rustRound q)) = _
    rw [hc, tryFromRange]

/-- Witness for the amended C7: the decimal value 5.5 rounds away from
zero to 6 and converts to the i8 target. -/
theorem tryfrom_integer_spec_instance :
    tryFromInteger (-128) 127 (.DecimalNumericProgramData (.finite (11 / 2 : ℚ))) =
      .ok 6 := by
  have h6 : rustRound (11 / 2 : ℚ) = 6 := by
    rw [rustRound, if_pos (by norm_num)]
    rw [Int.floor_eq_iff]
    norm_num
  have := (tryfrom_integer_spec.1 (-128) 127 (11 / 2 : ℚ) (by norm_num) (by norm_num)).1
    (by rw [h6]; exact ⟨by norm_num, by norm_num⟩)
  rw [this, h6]

end Scpi

namespace Scpi

/-! ## Status handlers (`ieee488/mandatory.rs`, `scpi1999/status.rs`) -/

/-- Modelled from the spec: the response unit of `response.rs` (not among
the provided sources), reduced to the sequence of data values emitted by
`data(...)` (spec section 4.4); `finish()` terminates the unit and is
modelled as a no-op on the emitted data. -/
structure ResponseUnit where
  emitted : List Nat
deriving DecidableEq, Repr

/-- `ResponseUnit::data(value)`: append one response data value. -/
def ResponseUnit.push (r : ResponseUnit) (v : Nat) : ResponseUnit :=
  ⟨r.emitted ++ [v]⟩

/-- Modelled from the spec (sections 3 and 6): the part of the device
state the `*ESR?` handler touches -- the `esr`, `ese` and `sre` registers
of the device trait (declared outside the provided sources; the getters
and setters are plain field accesses, as in the `TestDevice`
implementation in `tests/util/mod.rs`). -/
structure Ieee488State where
  esr : Nat
  ese : Nat
  sre : Nat
deriving DecidableEq, Repr

/-- `EsrCommand::query` (ieee488/mandatory.rs lines 93-103): read `esr`,
set it to 0, emit the old value. -/
def esrCommandQuery (d : Ieee488State) (response : ResponseUnit) :
    Ieee488State × ResponseUnit :=
  let esr := d.esr
  let d2 := { d with esr := 0 }
  (d2, response.push esr)

/-- C8: `*ESR?` emits the value the Event Status Register held before the
call as its response data and leaves the register cleared to 0 (the
other registers untouched). -/
theorem esr_query_spec (d : Ieee488State) (response : ResponseUnit) :
    (esrCommandQuery d response).2.emitted = response.emitted ++ [d.esr] ∧
    (esrCommandQuery d response).1.esr = 0 ∧
    (esrCommandQuery d response).1.ese = d.ese ∧
    (esrCommandQuery d response).1.sre = d.sre :=
  ⟨rfl, rfl, rfl, rfl⟩

/-- Modelled from the spec (section 3): the `EventRegister` structure of
`scpi1999/mod.rs` (not among the provided sources); the field names are
the ones the status handlers of `scpi1999/status.rs` use. -/
structure EventRegister where
  condition : Nat
  event : Nat
  enable : Nat
  ntr_filter : Nat
  ptr_filter : Nat
deriving DecidableEq, Repr

/-- The two status structures addressed through `GetEventRegister<T>`
(`T` = `Operation` or `Questionable`, scpi1999/status.rs lines 129-146). -/
inductive StatusName where
  | operation
  | questionable
deriving DecidableEq, Repr

/-- The SCPI-1999 status state: one `EventRegister` per structure. -/
structure ScpiStatus where
  operation : EventRegister
  questionable : EventRegister
deriving DecidableEq, Repr

/-- `GetEventRegister::register`. -/
def getRegister (sel : StatusName) (d : ScpiStatus) : EventRegister :=
  match sel with
  | .operation => d.operation
  | .questionable => d.questionable

/-- `GetEventRegister::register_mut`, as a functional field update. -/
def setRegister (sel : StatusName) (d : ScpiStatus) (r : EventRegister) : ScpiStatus :=
  match sel with
  | .operation => { d with operation := r }
  | .questionable => { d with questionable := r }

/-- `EventCommand::query` (scpi1999/status.rs lines 158-177): emit
`mem::replace(&mut register.event, 0) & 0x7FFF`. -/
def eventCommandQuery (sel : StatusName) (d : ScpiStatus) (response : ResponseUnit) :
    ScpiStatus × ResponseUnit :=
  let old := (getRegister sel d).event
  (setRegister sel d { getRegister sel d with event := 0 },
    response.push (Nat.land old 32767))

/-- `CondCommand::query` (scpi1999/status.rs lines 189-208): emit
`register.condition & 0x7FFF`, changing nothing. -/
def condCommandQuery (sel : StatusName) (d : ScpiStatus) (response : ResponseUnit) :
    ScpiStatus × ResponseUnit :=
  (d, response.push (Nat.land (getRegister sel d).condition 32767))

/-- C9: for both the OPERation and QUEStionable structures, the
`[:EVENt]?` query emits `event & 0x7FFF` and clears the event field,
leaving condition, enable and the transition filters unchanged; the
`:CONDition?` query emits `condition & 0x7FFF` and changes nothing. -/
theorem status_event_cond_query_spec (sel : StatusName) (d : ScpiStatus)
    (response : ResponseUnit) :
    (eventCommandQuery sel d response).2.emitted =
      response.emitted ++ [Nat.land (getRegister sel d).event 32767] ∧
    (getRegister sel (eventCommandQuery sel d response).1).event = 0 ∧
    (getRegister sel (eventCommandQuery sel d response).1).condition =
      (getRegister sel d).condition ∧
    (getRegister sel (eventCommandQuery sel d response).1).enable =
      (getRegister sel d).enable ∧
    (getRegister sel (eventCommandQuery sel d response).1).ntr_filter =
      (getRegister sel d).ntr_filter ∧
    (getRegister sel (eventCommandQuery sel d response).1).ptr_filter =
      (getRegister sel d).ptr_filter ∧
    condCommandQuery sel d response =
      (d, response.push (Nat.land (getRegister sel d).condition 32767)) := by
  cases sel <;> exact ⟨rfl, rfl, rfl, rfl, rfl, rfl, rfl⟩

end Scpi
